import Mathlib

/-!
Shallow embedding of the book pipeline frontend logic of the kdpamazon
repository (src/frontend/src/pages/BookDetail.js, the BookCreator page and
src/frontend/src/lib/api.js), together with proofs of the frozen claims
about it.  JavaScript strings are modelled as lists of characters; the
regular expressions used by the markdown preview are transliterated into
explicit scanning functions with the same lazy/greedy backtracking
semantics as the JavaScript regex engine on these patterns.
-/

namespace Kdp

/-- JavaScript strings, modelled as lists of characters. -/
abbrev Str := List Char

/-- The JavaScript whitespace class (the regex class `\s`, which is also the
set stripped by `String.prototype.trim`): ASCII whitespace, NBSP, OGHAM space,
the Unicode space separators, the line separators, narrow/medium spaces,
ideographic space and the BOM. -/
def isJsWs (c : Char) : Bool :=
  decide (c = ' ' ∨ c = '\t' ∨ c = '\n' ∨ c = '\r' ∨ c = '\x0b' ∨ c = '\x0c' ∨
    c = ' ' ∨ c = ' ' ∨ (' ' ≤ c ∧ c ≤ ' ') ∨
    c = ' ' ∨ c = ' ' ∨ c = ' ' ∨ c = ' ' ∨ c = '　' ∨
    c = '﻿')

/-- JavaScript `String.prototype.trim`: drop whitespace from both ends. -/
def jsTrim (l : Str) : Str :=
  ((l.dropWhile isJsWs).reverse.dropWhile isJsWs).reverse

/-- The characters matched by the regex metacharacter `.` (no `s` flag):
everything except the line terminators. -/
def isDot (c : Char) : Bool :=
  decide (c ≠ '\n' ∧ c ≠ '\r' ∧ c ≠ ' ' ∧ c ≠ ' ')

/-- `leadsWith p l` holds when `p` is an initial segment of `l`
(the anchored literal part of a regex match). -/
def leadsWith : Str → Str → Bool
  | [], _ => true
  | _ :: _, [] => false
  | p :: ps, c :: cs => if p = c then leadsWith ps cs else false

/-- Number of leading `#` characters (the greedy match of `#+` at the
start of the string). -/
def countHashes (t : Str) : Nat :=
  (t.takeWhile (fun c => c = '#')).length

/-- Number of leading decimal digits (the greedy match of `\d+` at the
start of the string). -/
def countDigits (t : Str) : Nat :=
  (t.takeWhile Char.isDigit).length

/-!  The inline emphasis rewriting of the full book preview
(BookDetail.js lines 213-218):

    trimmed.replace(/\*{3}(.+?)\*{3}/g, "<strong><em>$1</em></strong>")
           .replace(/\*{2}(.+?)\*{2}/g, "<strong>$1</strong>")
           .replace(/(?<!\*)\*(?!\*)(.+?)(?<!\*)\*(?!\*)/g, "<em>$1</em>")

Each `replace` with the `g` flag scans the subject left to right; a lazy
body `(.+?)` consumes one `.`-character and then tries the closing
delimiter at each subsequent position, extending one `.`-character at a
time.  `lazyClose pat l` performs that search: it returns the consumed
body extension and the remainder after the closing `pat`, preferring the
closing delimiter over extension (lazy quantifier). -/

/-- Lazy search for a closing literal `pat`: at each position first try to
match `pat`, otherwise consume one `.`-matchable character into the body. -/
def lazyClose (pat : Str) : Str → Option (Str × Str)
  | [] => none
  | c :: rest =>
    if leadsWith pat (c :: rest) then some ([], (c :: rest).drop pat.length)
    else if isDot c then
      match lazyClose pat rest with
      | some (ct, rem) => some (c :: ct, rem)
      | none => none
    else none

/-- The regex fragment `(.+?)pat`: at least one `.`-character, then the lazy
search for the closing `pat`.  Returns the captured body and the remainder
after the closing delimiter. -/
def lazyBody (pat : Str) (l : Str) : Option (Str × Str) :=
  match l with
  | [] => none
  | c :: rest =>
    if isDot c then
      match lazyClose pat rest with
      | some (ct, rem) => some (c :: ct, rem)
      | none => none
    else none

theorem lazyClose_length_le {pat : Str} :
    ∀ {l ct rem : Str}, lazyClose pat l = some (ct, rem) → rem.length ≤ l.length := by
  intro l
  induction l with
  | nil => intro ct rem h; simp [lazyClose] at h
  | cons c rest ih =>
    intro ct rem h
    simp only [lazyClose] at h
    split at h
    · simp only [Option.some.injEq, Prod.mk.injEq] at h
      obtain ⟨-, hrem⟩ := h
      subst hrem
      simp only [List.length_drop, List.length_cons]
      omega
    · split at h
      · split at h
        · rename_i heq
          simp only [Option.some.injEq, Prod.mk.injEq] at h
          obtain ⟨-, hrem⟩ := h
          subst hrem
          have := ih heq
          simp only [List.length_cons]
          omega
        · simp at h
      · simp at h

theorem lazyBody_length_lt {pat : Str} :
    ∀ {l ct rem : Str}, lazyBody pat l = some (ct, rem) → rem.length < l.length := by
  intro l ct rem h
  cases l with
  | nil => simp [lazyBody] at h
  | cons c rest =>
    simp only [lazyBody] at h
    split at h
    · split at h
      · rename_i heq
        simp only [Option.some.injEq, Prod.mk.injEq] at h
        obtain ⟨-, hrem⟩ := h
        subst hrem
        have := lazyClose_length_le heq
        simp only [List.length_cons]
        omega
      · simp at h
    · simp at h

/-- One `String.prototype.replace(/pat(.+?)pat/g, pre + "$1" + post)` pass:
scan left to right; where the opening `pat` matches and a lazy body with a
closing `pat` is found, emit `pre ++ body ++ post` and continue after the
match; otherwise emit the current character and continue. -/
def replWrap (pat pre post : Str) : Str → Str
  | [] => []
  | c :: rest =>
    if leadsWith pat (c :: rest) then
      match hm : lazyBody pat ((c :: rest).drop pat.length) with
      | some (ct, rem) => pre ++ ct ++ post ++ replWrap pat pre post rem
      | none => c :: replWrap pat pre post rest
    else c :: replWrap pat pre post rest
termination_by l => l.length
decreasing_by
  · have h1 := lazyBody_length_lt hm
    simp only [List.length_drop, List.length_cons] at *
    omega
  · simp
  · simp

/-- Lazy search for the guarded closing delimiter of the third replace:
`(?<!\*)\*(?!\*)` — an asterisk whose previous character (`prev`, the last
character consumed into the body, or the opening's first body character) is
not an asterisk and whose next character is not an asterisk. -/
def singleClose (prev : Char) : Str → Option (Str × Str)
  | [] => none
  | c :: rest =>
    if c = '*' ∧ prev ≠ '*' ∧ rest.head? ≠ some '*' then some ([], rest)
    else if isDot c then
      match singleClose c rest with
      | some (ct, rem) => some (c :: ct, rem)
      | none => none
    else none

/-- The fragment `(.+?)(?<!\*)\*(?!\*)` of the third replace. -/
def singleBody (l : Str) : Option (Str × Str) :=
  match l with
  | [] => none
  | c :: rest =>
    if isDot c then
      match singleClose c rest with
      | some (ct, rem) => some (c :: ct, rem)
      | none => none
    else none

theorem singleClose_length_lt :
    ∀ {l : Str} {prev : Char} {ct rem : Str},
      singleClose prev l = some (ct, rem) → rem.length < l.length := by
  intro l
  induction l with
  | nil => intro prev ct rem h; simp [singleClose] at h
  | cons c rest ih =>
    intro prev ct rem h
    simp only [singleClose] at h
    split at h
    · simp only [Option.some.injEq, Prod.mk.injEq] at h
      obtain ⟨-, hrem⟩ := h
      subst hrem
      simp
    · split at h
      · split at h
        · rename_i heq
          simp only [Option.some.injEq, Prod.mk.injEq] at h
          obtain ⟨-, hrem⟩ := h
          subst hrem
          have := ih heq
          simp only [List.length_cons]
          omega
        · simp at h
      · simp at h

theorem singleBody_length_lt :
    ∀ {l ct rem : Str}, singleBody l = some (ct, rem) → rem.length < l.length := by
  intro l ct rem h
  cases l with
  | nil => simp [singleBody] at h
  | cons c rest =>
    simp only [singleBody] at h
    split at h
    · split at h
      · rename_i heq
        simp only [Option.some.injEq, Prod.mk.injEq] at h
        obtain ⟨-, hrem⟩ := h
        subst hrem
        have := singleClose_length_lt heq
        simp only [List.length_cons]
        omega
      · simp at h
    · simp at h

/-- The third replace of the full preview:
`replace(/(?<!\*)\*(?!\*)(.+?)(?<!\*)\*(?!\*)/g, "<em>$1</em>")`.
`prev` is the character of the subject immediately before the current scan
position (`none` at the start of the string); matches are located in the
original subject, so after a match the previous character is the closing
asterisk. -/
def replSingle (prev : Option Char) : Str → Str
  | [] => []
  | c :: rest =>
    if c = '*' ∧ prev ≠ some '*' ∧ rest.head? ≠ some '*' then
      match hm : singleBody rest with
      | some (ct, rem) =>
          "<em>".toList ++ ct ++ "</em>".toList ++ replSingle (some '*') rem
      | none => c :: replSingle (some c) rest
    else c :: replSingle (some c) rest
termination_by l => l.length
decreasing_by
  · have := singleBody_length_lt hm
    simp only [List.length_cons]
    omega
  · simp
  · simp

/-- `replace(/\*{3}(.+?)\*{3}/g, "<strong><em>$1</em></strong>")`. -/
def replTriple (l : Str) : Str :=
  replWrap ['*', '*', '*'] "<strong><em>".toList "</em></strong>".toList l

/-- `replace(/\*{2}(.+?)\*{2}/g, "<strong>$1</strong>")`. -/
def replDouble (l : Str) : Str :=
  replWrap ['*', '*'] "<strong>".toList "</strong>".toList l

/-- The inline bold/italic parsing of a paragraph line in the full book
preview (BookDetail.js lines 213-218): the three global replaces applied
in source order. -/
def inlineHtml (t : Str) : Str :=
  replSingle none (replDouble (replTriple t))

/-!  The inline cleanup of the expanded-card preview
(BookDetail.js lines 436-439):

    trimmed.replace(/\*{2,3}(.+?)\*{2,3}/g, "$1")
           .replace(/\*(.+?)\*/g, "$1")

The quantifier `\*{2,3}` is greedy (tries three asterisks first, then two),
both for the opening and for the closing delimiter. -/

/-- Lazy body search whose closing delimiter is the greedy `\*{2,3}`. -/
def cleanClose : Str → Option (Str × Str)
  | [] => none
  | c :: rest =>
    if leadsWith ['*', '*', '*'] (c :: rest) then some ([], (c :: rest).drop 3)
    else if leadsWith ['*', '*'] (c :: rest) then some ([], (c :: rest).drop 2)
    else if isDot c then
      match cleanClose rest with
      | some (ct, rem) => some (c :: ct, rem)
      | none => none
    else none

/-- The fragment `(.+?)\*{2,3}` of the first card-preview replace. -/
def cleanBody (l : Str) : Option (Str × Str) :=
  match l with
  | [] => none
  | c :: rest =>
    if isDot c then
      match cleanClose rest with
      | some (ct, rem) => some (c :: ct, rem)
      | none => none
    else none

theorem cleanClose_length_le :
    ∀ {l ct rem : Str}, cleanClose l = some (ct, rem) → rem.length ≤ l.length := by
  intro l
  induction l with
  | nil => intro ct rem h; simp [cleanClose] at h
  | cons c rest ih =>
    intro ct rem h
    simp only [cleanClose] at h
    split at h
    · simp only [Option.some.injEq, Prod.mk.injEq] at h
      obtain ⟨-, hrem⟩ := h
      subst hrem
      simp only [List.length_drop, List.length_cons]
      omega
    · split at h
      · simp only [Option.some.injEq, Prod.mk.injEq] at h
        obtain ⟨-, hrem⟩ := h
        subst hrem
        simp only [List.length_drop, List.length_cons]
        omega
      · split at h
        · split at h
          · rename_i heq
            simp only [Option.some.injEq, Prod.mk.injEq] at h
            obtain ⟨-, hrem⟩ := h
            subst hrem
            have := ih heq
            simp only [List.length_cons]
            omega
          · simp at h
        · simp at h

theorem cleanBody_length_lt :
    ∀ {l ct rem : Str}, cleanBody l = some (ct, rem) → rem.length < l.length := by
  intro l ct rem h
  cases l with
  | nil => simp [cleanBody] at h
  | cons c rest =>
    simp only [cleanBody] at h
    split at h
    · split at h
      · rename_i heq
        simp only [Option.some.injEq, Prod.mk.injEq] at h
        obtain ⟨-, hrem⟩ := h
        subst hrem
        have := cleanClose_length_le heq
        simp only [List.length_cons]
        omega
      · simp at h
    · simp at h

/-- `replace(/\*{2,3}(.+?)\*{2,3}/g, "$1")` of the expanded-card preview:
the opening `\*{2,3}` greedily tries three asterisks and, if no match
completes, backtracks to two. -/
def replCleanTD : Str → Str
  | [] => []
  | c :: rest =>
    if leadsWith ['*', '*', '*'] (c :: rest) then
      match hm3 : cleanBody ((c :: rest).drop 3) with
      | some (ct, rem) => ct ++ replCleanTD rem
      | none =>
        match hm2 : cleanBody ((c :: rest).drop 2) with
        | some (ct, rem) => ct ++ replCleanTD rem
        | none => c :: replCleanTD rest
    else if leadsWith ['*', '*'] (c :: rest) then
      match hm : cleanBody ((c :: rest).drop 2) with
      | some (ct, rem) => ct ++ replCleanTD rem
      | none => c :: replCleanTD rest
    else c :: replCleanTD rest
termination_by l => l.length
decreasing_by
  · have h1 := cleanBody_length_lt hm3
    simp only [List.length_drop, List.length_cons] at *
    omega
  · have h1 := cleanBody_length_lt hm2
    simp only [List.length_drop, List.length_cons] at *
    omega
  · simp
  · have h1 := cleanBody_length_lt hm
    simp only [List.length_drop, List.length_cons] at *
    omega
  · simp
  · simp

/-- Lazy body search whose closing delimiter is a bare `\*`. -/
def cleanCloseS : Str → Option (Str × Str)
  | [] => none
  | c :: rest =>
    if c = '*' then some ([], rest)
    else if isDot c then
      match cleanCloseS rest with
      | some (ct, rem) => some (c :: ct, rem)
      | none => none
    else none

/-- The fragment `(.+?)\*` of the second card-preview replace. -/
def cleanBodyS (l : Str) : Option (Str × Str) :=
  match l with
  | [] => none
  | c :: rest =>
    if isDot c then
      match cleanCloseS rest with
      | some (ct, rem) => some (c :: ct, rem)
      | none => none
    else none

theorem cleanCloseS_length_lt :
    ∀ {l ct rem : Str}, cleanCloseS l = some (ct, rem) → rem.length < l.length := by
  intro l
  induction l with
  | nil => intro ct rem h; simp [cleanCloseS] at h
  | cons c rest ih =>
    intro ct rem h
    simp only [cleanCloseS] at h
    split at h
    · simp only [Option.some.injEq, Prod.mk.injEq] at h
      obtain ⟨-, hrem⟩ := h
      subst hrem
      simp
    · split at h
      · split at h
        · rename_i heq
          simp only [Option.some.injEq, Prod.mk.injEq] at h
          obtain ⟨-, hrem⟩ := h
          subst hrem
          have := ih heq
          simp only [List.length_cons]
          omega
        · simp at h
      · simp at h

theorem cleanBodyS_length_lt :
    ∀ {l ct rem : Str}, cleanBodyS l = some (ct, rem) → rem.length < l.length := by
  intro l ct rem h
  cases l with
  | nil => simp [cleanBodyS] at h
  | cons c rest =>
    simp only [cleanBodyS] at h
    split at h
    · split at h
      · rename_i heq
        simp only [Option.some.injEq, Prod.mk.injEq] at h
        obtain ⟨-, hrem⟩ := h
        subst hrem
        have := cleanCloseS_length_lt heq
        simp only [List.length_cons]
        omega
      · simp at h
    · simp at h

/-- `replace(/\*(.+?)\*/g, "$1")` of the expanded-card preview. -/
def replCleanS : Str → Str
  | [] => []
  | c :: rest =>
    if c = '*' then
      match hm : cleanBodyS rest with
      | some (ct, rem) => ct ++ replCleanS rem
      | none => c :: replCleanS rest
    else c :: replCleanS rest
termination_by l => l.length
decreasing_by
  · have := cleanBodyS_length_lt hm
    simp only [List.length_cons]
    omega
  · simp
  · simp

/-- The inline markdown cleanup of the expanded-card preview
(BookDetail.js lines 436-439): strips the emphasis markers. -/
def cleanInline (t : Str) : Str :=
  replCleanS (replCleanTD t)

/-!  Line classification.  Both previews trim each line and test, in order,
the regexes `/^#{1,4}\s/`, `/^[-*]\s/` and (full preview only)
`/^\d+[.)]\s/`, falling through to a paragraph. -/

/-- The test `/^#{1,4}\s/.test(trimmed)`: the greedy `#{1,4}` backtracks, so
the regex matches exactly when for some count between one and four the
string starts with that many `#` characters followed by one `\s`
character. -/
def testHeading (t : Str) : Bool :=
  (List.range 4).any fun i =>
    ((t.take (i + 1)).all fun c => c = '#') && ((t.drop (i + 1)).head?.any isJsWs)

/-- The test `/^[-*]\s/.test(trimmed)`. -/
def testBullet (t : Str) : Bool :=
  (t.head?.any fun c => c = '-' || c = '*') && ((t.drop 1).head?.any isJsWs)

/-- The test `/^\d+[.)]\s/.test(trimmed)`: the greedy `\d+` backtracks, but
a shorter digit run is followed by a further digit, which `[.)]` cannot
match, so the regex matches exactly when the maximal digit run works. -/
def testNumbered (t : Str) : Bool :=
  (List.range (countDigits t)).any fun i =>
    ((t.take (i + 1)).all Char.isDigit) &&
      ((t.drop (i + 1)).head?.any fun c => c = '.' || c = ')') &&
      ((t.drop (i + 2)).head?.any isJsWs)

/-- `trimmed.replace(/^#{1,4}\s+/, "")`: when the anchored regex matches it
strips the greedy run of up to four `#` characters and the maximal
following whitespace run; otherwise the string is unchanged. -/
def stripHeadingMarker (t : Str) : Str :=
  if testHeading t then (t.drop (min (countHashes t) 4)).dropWhile isJsWs else t

/-- `trimmed.replace(/^[-*]\s+/, "")`. -/
def stripBulletMarker (t : Str) : Str :=
  if testBullet t then (t.drop 1).dropWhile isJsWs else t

/-- `trimmed.replace(/^\d+[.)]\s+/, "")`. -/
def stripNumberedMarker (t : Str) : Str :=
  if testNumbered t then (t.drop (countDigits t + 1)).dropWhile isJsWs else t

/-- The block produced for one line by the full book preview
(BookDetail.js lines 197-219). -/
inductive Block
  | blank
  | heading (level : Nat) (text : Str)
  | bullet (text : Str)
  | numbered (text : Str)
  | para (html : Str)
deriving DecidableEq, Repr

/-- The full-preview line renderer (BookDetail.js lines 198-219): trim the
line; an empty trim is a blank (`<br>`); `/^#{1,4}\s/` yields a heading
whose level is the length of the greedy match of `/^(#{1,4})/`;
`/^[-*]\s/` a bullet item; `/^\d+[.)]\s/` a numbered item; anything else a
paragraph carrying the inline bold/italic HTML. -/
def classifyFull (line : Str) : Block :=
  let t := jsTrim line
  if t = [] then Block.blank
  else if testHeading t then Block.heading (min (countHashes t) 4) (stripHeadingMarker t)
  else if testBullet t then Block.bullet (stripBulletMarker t)
  else if testNumbered t then Block.numbered (stripNumberedMarker t)
  else Block.para (inlineHtml t)

/-- The block produced for one line by the expanded-card content preview
(BookDetail.js lines 426-441); it has no numbered-item case and no heading
levels. -/
inductive CardBlock
  | blank
  | heading (text : Str)
  | bullet (text : Str)
  | para (text : Str)
deriving DecidableEq, Repr

/-- The expanded-card line renderer (BookDetail.js lines 426-441): trim the
line; an empty trim is a blank; `/^#{1,4}\s/` yields an `<h3>` with the
marker stripped; `/^[-*]\s/` a bullet item; every other line — numbered
items included — a paragraph whose text is the inline cleanup. -/
def classifyCard (line : Str) : CardBlock :=
  let t := jsTrim line
  if t = [] then CardBlock.blank
  else if testHeading t then CardBlock.heading (stripHeadingMarker t)
  else if testBullet t then CardBlock.bullet (stripBulletMarker t)
  else CardBlock.para (cleanInline t)

/-- The block kind assigned by a classification, used to compare the code
against the dialect the spec prescribes (the paragraph's inline rendering
is the subject of a separate claim). -/
inductive BlockKind
  | blank
  | heading (level : Nat) (text : Str)
  | bullet (text : Str)
  | numbered (text : Str)
  | para
deriving DecidableEq, Repr

/-- Forgets a full-preview block's inline rendering. -/
def kindOf : Block → BlockKind
  | Block.blank => BlockKind.blank
  | Block.heading lv tx => BlockKind.heading lv tx
  | Block.bullet tx => BlockKind.bullet tx
  | Block.numbered tx => BlockKind.numbered tx
  | Block.para _ => BlockKind.para

/-- The line dialect exactly as the spec's words prescribe it (claim C1):
on the trimmed form of the line, a run of one to four `#` characters
followed by whitespace is a heading whose level is the length of the run
and whose text is the remainder after the marker and its whitespace (five
or more `#` characters are not a heading); `-` or `*` followed by
whitespace is a bullet item with the marker stripped; one or more digits,
then `.` or `)`, then whitespace is a numbered item with the marker
stripped; a whitespace-only line is a blank; every other line is a
paragraph. -/
def specDialectClassify (line : Str) : BlockKind :=
  let t := jsTrim line
  let hashes := countHashes t
  let digits := countDigits t
  if line.all isJsWs then BlockKind.blank
  else if 1 ≤ hashes ∧ hashes ≤ 4 ∧ (t.drop hashes).head?.any isJsWs = true then
    BlockKind.heading hashes ((t.drop hashes).dropWhile isJsWs)
  else if (t.head?.any fun c => c = '-' || c = '*') = true ∧ (t.drop 1).head?.any isJsWs = true then
    BlockKind.bullet ((t.drop 1).dropWhile isJsWs)
  else if 1 ≤ digits ∧ (t.drop digits).head?.any (fun c => c = '.' || c = ')') = true ∧
      (t.drop (digits + 1)).head?.any isJsWs = true then
    BlockKind.numbered ((t.drop (digits + 1)).dropWhile isJsWs)
  else BlockKind.para

/-- The collapse a full-preview block undergoes in the expanded-card
preview: heading levels are forgotten, and a numbered item — which the
card renderer does not recognize — falls through to a paragraph whose text
is the card's inline cleanup of the trimmed line. -/
def collapseToCard (t : Str) : Block → CardBlock
  | Block.blank => CardBlock.blank
  | Block.heading _ tx => CardBlock.heading tx
  | Block.bullet tx => CardBlock.bullet tx
  | Block.numbered _ => CardBlock.para (cleanInline t)
  | Block.para _ => CardBlock.para (cleanInline t)

/-!  Well-formed inline emphasis.  Claim C2 is about paragraph text made of
literal runs and emphasis runs; a segment list renders to the markdown
source consumed by `inlineHtml` and to the HTML the spec promises for
it. -/

/-- One span of a paragraph line: a literal run or an emphasis run. -/
inductive Seg
  | lit (s : Str)
  | em (s : Str)
  | strong (s : Str)
  | strongem (s : Str)
deriving DecidableEq, Repr

/-- Emphasis segments are the non-literal ones. -/
def Seg.isEmph : Seg → Bool
  | Seg.lit _ => false
  | _ => true

/-- No asterisk occurs in the run. -/
def starFree (s : Str) : Bool :=
  s.all fun c => c ≠ '*'

/-- Every character of the run is matched by the regex `.`. -/
def dotOnly (s : Str) : Bool :=
  s.all isDot

/-- A single segment is well formed: runs are nonempty, contain no
asterisk of their own, and emphasis bodies consist of `.`-matchable
characters. -/
def segOk : Seg → Bool
  | Seg.lit s => decide (s ≠ []) && starFree s
  | Seg.em s => decide (s ≠ []) && starFree s && dotOnly s
  | Seg.strong s => decide (s ≠ []) && starFree s && dotOnly s
  | Seg.strongem s => decide (s ≠ []) && starFree s && dotOnly s

/-- A segment list is well formed when every segment is and no two
emphasis runs are adjacent (`prevE` records whether the previous segment
was an emphasis run). -/
def wfChain : Bool → List Seg → Bool
  | _, [] => true
  | prevE, s :: rest => segOk s && !(prevE && s.isEmph) && wfChain s.isEmph rest

/-- Well-formed paragraph content. -/
def wfSegs (segs : List Seg) : Bool :=
  wfChain false segs

/-- The markdown source of one segment. -/
def Seg.md : Seg → Str
  | Seg.lit s => s
  | Seg.em s => '*' :: s ++ ['*']
  | Seg.strong s => '*' :: '*' :: s ++ ['*', '*']
  | Seg.strongem s => '*' :: '*' :: '*' :: s ++ ['*', '*', '*']

/-- The state of one segment after the first replace (`***x***` runs
rewritten). -/
def Seg.md1 : Seg → Str
  | Seg.lit s => s
  | Seg.em s => '*' :: s ++ ['*']
  | Seg.strong s => '*' :: '*' :: s ++ ['*', '*']
  | Seg.strongem s => "<strong><em>".toList ++ s ++ "</em></strong>".toList

/-- The state of one segment after the second replace (`**x**` runs
rewritten). -/
def Seg.md2 : Seg → Str
  | Seg.lit s => s
  | Seg.em s => '*' :: s ++ ['*']
  | Seg.strong s => "<strong>".toList ++ s ++ "</strong>".toList
  | Seg.strongem s => "<strong><em>".toList ++ s ++ "</em></strong>".toList

/-- The HTML the spec promises for one segment. -/
def Seg.html : Seg → Str
  | Seg.lit s => s
  | Seg.em s => "<em>".toList ++ s ++ "</em>".toList
  | Seg.strong s => "<strong>".toList ++ s ++ "</strong>".toList
  | Seg.strongem s => "<strong><em>".toList ++ s ++ "</em></strong>".toList

/-- Markdown source of a segment list. -/
def mdOf : List Seg → Str
  | [] => []
  | s :: rest => s.md ++ mdOf rest

/-- Rendering after the first replace. -/
def md1Of : List Seg → Str
  | [] => []
  | s :: rest => s.md1 ++ md1Of rest

/-- Rendering after the second replace. -/
def md2Of : List Seg → Str
  | [] => []
  | s :: rest => s.md2 ++ md2Of rest

/-- The promised HTML of a segment list. -/
def htmlOf : List Seg → Str
  | [] => []
  | s :: rest => s.html ++ htmlOf rest

/-- The subject character immediately before the scan position after
passing over `a` (used by the lookbehind of the third replace). -/
def lastOr (p : Option Char) : Str → Option Char
  | [] => p
  | c :: rest => lastOr (some c) rest

/-!  Data model.  The progress payload and the book record, with the
optionality the JavaScript code guards against (`book.chapters || []`,
`book.outline || []`, `progress.error || ...`). -/

/-- One generated chapter as the frontend consumes it. -/
structure Chapter where
  chapter_number : Nat
  title : String
  content : String
  image_url : Option String
deriving DecidableEq, Repr

/-- One outline entry as the frontend consumes it. -/
structure OutlineEntry where
  chapter_number : Nat
  title : String
  summary : String
  estimated_pages : Nat
deriving DecidableEq, Repr

/-- A book record as the frontend consumes it. -/
structure Book where
  title : Str
  status : String
  language : String
  chapters : Option (List Chapter)
  outline : Option (List OutlineEntry)
deriving DecidableEq, Repr

/-- The progress payload returned by `GET /books/:id/progress`. -/
structure Progress where
  status : String
  error : Option String
  generated_chapters : Nat
  total_chapters : Nat
deriving DecidableEq, Repr

/-- `(book.chapters || []).sort((a, b) => a.chapter_number - b.chapter_number)`
(BookDetail.js line 145). -/
def chaptersOf (b : Book) : List Chapter :=
  (b.chapters.getD []).mergeSort fun c₁ c₂ => c₁.chapter_number ≤ c₂.chapter_number

/-- `book.outline || []` (BookDetail.js line 146). -/
def outlineOf (b : Book) : List OutlineEntry :=
  b.outline.getD []

/-- JavaScript `s || d` on an optional string: `undefined`, `null` and the
empty string are falsy. -/
def jsOrDefault (s : Option String) (d : String) : String :=
  match s with
  | none => d
  | some v => if v = "" then d else v

/-- JavaScript truthiness of an optional string field. -/
def jsTruthyStr : Option String → Bool
  | none => false
  | some v => decide (v ≠ "")

/-- A toast notification. -/
inductive ToastKind
  | success (msg : String)
  | error (msg : String)
deriving DecidableEq, Repr

/-- Whether a toast is the success notification. -/
def ToastKind.isSuccessToast : ToastKind → Bool
  | ToastKind.success _ => true
  | ToastKind.error _ => false

/-- Outcome of the image-generation handler: whether the book was
refetched and which toast was shown. -/
structure ImgHandlerResult where
  refetched : Bool
  toast : ToastKind
deriving DecidableEq, Repr

/-- The response of `POST /books/:id/generate-image/:n`. -/
structure GenImageResp where
  image_url : Option String
deriving DecidableEq, Repr

/-- `handleGenerateImage` (BookDetail.js lines 84-99): on a rejected
request the catch shows `err.response?.data?.detail || "Failed to generate
image"`; on a fulfilled request the success path (refetch plus success
toast) is taken only when `result.image_url` is truthy, otherwise the
handler shows the distinct "No image could be generated" error. -/
def handleGenerateImage (chapterNum : Nat) (resp : Except (Option String) GenImageResp) : ImgHandlerResult :=
  match resp with
  | Except.error detail =>
      { refetched := false, toast := ToastKind.error (jsOrDefault detail "Failed to generate image") }
  | Except.ok r =>
      if jsTruthyStr r.image_url then
        { refetched := true,
          toast := ToastKind.success ("Image generated for chapter " ++ toString chapterNum ++ "!") }
      else
        { refetched := false, toast := ToastKind.error "No image could be generated" }

/-- `getImageSrc` (BookDetail.js lines 23-27): a falsy URL (absent or
empty) yields `null`; a URL starting with `/api` is prefixed with the
backend base URL; any other URL is returned unchanged. -/
def getImageSrc (backendUrl : Str) (imageUrl : Option Str) : Option Str :=
  match imageUrl with
  | none => none
  | some u =>
    if u = [] then none
    else if leadsWith ['/', 'a', 'p', 'i'] u then some (backendUrl ++ u)
    else some u

theorem dropWhile_length_le (p : Char → Bool) :
    ∀ l : Str, (l.dropWhile p).length ≤ l.length := by
  intro l
  induction l with
  | nil => simp
  | cons c rest ih =>
    by_cases hc : p c = true
    · simp only [List.dropWhile_cons, hc, if_true, List.length_cons]
      omega
    · simp [List.dropWhile_cons, hc]

/-- `title.replace(/\s+/g, "_")` (BookDetail.js line 122): every maximal
whitespace run becomes a single underscore. -/
def replaceWsUnderscore : Str → Str
  | [] => []
  | c :: rest =>
    if isJsWs c then '_' :: replaceWsUnderscore (rest.dropWhile isJsWs)
    else c :: replaceWsUnderscore rest
termination_by l => l.length
decreasing_by
  · have := dropWhile_length_le isJsWs rest
    simp only [List.length_cons]
    omega
  · simp

/-- The download filename built by `handleExport` (BookDetail.js line 122):
`book.title.replace(/\s+/g, "_") + "." + format`. -/
def exportDownloadName (b : Book) (format : Str) : Str :=
  replaceWsUnderscore b.title ++ '.' :: format

/-- A decomposition of a title into maximal non-whitespace words and
whitespace gaps. -/
inductive TitleTok
  | word (s : Str)
  | gap (s : Str)
deriving DecidableEq, Repr

/-- The characters of a token. -/
def TitleTok.flat : TitleTok → Str
  | TitleTok.word s => s
  | TitleTok.gap s => s

/-- Whether a token is a whitespace gap. -/
def TitleTok.isGap : TitleTok → Bool
  | TitleTok.word _ => false
  | TitleTok.gap _ => true

/-- A token is well formed when it is nonempty and a word holds no
whitespace while a gap holds only whitespace. -/
def tokOk : TitleTok → Bool
  | TitleTok.word s => decide (s ≠ []) && s.all fun c => !isJsWs c
  | TitleTok.gap s => decide (s ≠ []) && s.all isJsWs

/-- A token list is a run decomposition when all tokens are well formed
and no two gaps are adjacent (`prevGap` records whether the previous token
was a gap), so each gap is a maximal whitespace run. -/
def toksOk : Bool → List TitleTok → Bool
  | _, [] => true
  | prevGap, tok :: rest => tokOk tok && !(prevGap && tok.isGap) && toksOk tok.isGap rest

/-- The title the token list spells. -/
def flatToks : List TitleTok → Str
  | [] => []
  | tok :: rest => tok.flat ++ flatToks rest

/-- The filename stem the claim predicts: words kept, each gap replaced by
one underscore. -/
def renderToks : List TitleTok → Str
  | [] => []
  | TitleTok.word s :: rest => s ++ renderToks rest
  | TitleTok.gap _ :: rest => '_' :: renderToks rest

/-!  Polling (BookDetail.js lines 57-69 and BookCreator `pollProgress`,
lines 126-144 of the creator page).  The interval callbacks are modelled
as pure step functions on one poll result; `Except.error` is the rejected
request swallowed by the empty catch block. -/

/-- What the book-detail polling effect installs (BookDetail.js lines
57-59): no interval unless a book is loaded and its status is `writing`;
otherwise an interval with a 5000 ms period. -/
def bookDetailPollSetup (ob : Option Book) : Option Nat :=
  match ob with
  | none => none
  | some b => if b.status = "writing" then some 5000 else none

/-- One tick outcome of the book-detail poll. -/
structure DetailTick where
  cleared : Bool
  refetched : Bool
deriving DecidableEq, Repr

/-- One tick of the book-detail poll (BookDetail.js lines 60-66): a
rejected progress request is swallowed and polling continues; a fulfilled
result with a status other than `writing` clears the interval and
refetches the book once; a `writing` status leaves the interval running. -/
def bookDetailPollTick (r : Except Unit Progress) : DetailTick :=
  match r with
  | Except.error _ => { cleared := false, refetched := false }
  | Except.ok p =>
    if p.status ≠ "writing" then { cleared := true, refetched := true }
    else { cleared := false, refetched := false }

/-- What one tick of the creation-flow poll decides. -/
inductive CreatorPollAction
  | stopAndNavigate
  | stopAndShowError (msg : String)
  | keepPolling
deriving DecidableEq, Repr

/-- The creation-flow poll period (`setInterval(..., 5000)`). -/
def creatorPollIntervalMs : Nat := 5000

/-- One tick of `pollProgress` in BookCreator (creator page lines
126-144): `chapters_complete` stops polling and navigates to the book;
`error` stops polling and shows `progress.error || "Error during
generation"`; every other status — and a rejected request — keeps
polling. -/
def creatorPollStep (r : Except Unit Progress) : CreatorPollAction :=
  match r with
  | Except.error _ => CreatorPollAction.keepPolling
  | Except.ok p =>
    if p.status = "chapters_complete" then CreatorPollAction.stopAndNavigate
    else if p.status = "error" then
      CreatorPollAction.stopAndShowError (jsOrDefault p.error "Error during generation")
    else CreatorPollAction.keepPolling

/-!  Export gating and the export engine boundary. -/

/-- Whether the preview/export controls are rendered at all
(BookDetail.js line 262): the whole block is guarded by
`chapters.length > 0 &&`. -/
def exportControlsVisible (b : Book) : Bool :=
  decide (0 < (chaptersOf b).length)

/-- The distinct export failures the spec names. -/
inductive ExportError
  | noChapters
  | unsupportedFormat
deriving DecidableEq, Repr

/-- Modelled from the spec: the backend export engine behind
`POST /books/:id/export` is not among the sources under src/ (only its
frontend caller is), so its contract is taken from the spec — "Exporting
fails loudly (distinct error) if the book has zero chapters or the format
is unrecognized; it never silently produces an empty document", with the
three supported formats pdf, docx and epub.  The actual rendering is an
arbitrary parameter `render`, so nothing about document content is
assumed. -/
def exportBook (render : Book → String → List Nat) (b : Book) (format : String) :
    Except ExportError (List Nat) :=
  if (chaptersOf b).length = 0 then Except.error ExportError.noChapters
  else if format = "pdf" ∨ format = "docx" ∨ format = "epub" then Except.ok (render b format)
  else Except.error ExportError.unsupportedFormat

/-!  Writing-progress fractions. -/

/-- `chapters.length / Math.max(outline.length, 1)` (BookDetail.js line
147). -/
def bookDetailProgress (b : Book) : ℚ :=
  ((chaptersOf b).length : ℚ) / ((max (outlineOf b).length 1 : Nat) : ℚ)

/-- `(writingProgress.generated_chapters / Math.max(writingProgress.total_chapters, 1)) * 100`
(creator page line 458). -/
def creatorProgressValue (p : Progress) : ℚ :=
  ((p.generated_chapters : ℚ) / ((max p.total_chapters 1 : Nat) : ℚ)) * 100

theorem head_any_eq_true {p : Char → Bool} {l : Str} :
    l.head?.any p = true ↔ ∃ c, l.head? = some c ∧ p c = true := by
  cases l <;> simp

theorem takeWhile_take_all (p : Char → Bool) :
    ∀ (t : Str) (n : Nat), n ≤ (t.takeWhile p).length → (t.take n).all p = true := by
  intro t
  induction t with
  | nil =>
    intro n hn
    simp only [List.takeWhile_nil, List.length_nil, Nat.le_zero] at hn
    simp [hn]
  | cons c r ih =>
    intro n hn
    by_cases hc : p c = true
    · cases n with
      | zero => simp
      | succ m =>
        simp only [List.takeWhile_cons, hc, if_true, List.length_cons] at hn
        simp only [List.take_succ_cons, List.all_cons, hc, Bool.true_and]
        exact ih m (by omega)
    · simp only [List.takeWhile_cons, hc, Bool.false_eq_true, if_false, List.length_nil,
        Nat.le_zero] at hn
      simp [hn]

theorem all_take_le_takeWhile (p : Char → Bool) :
    ∀ (t : Str) (n : Nat), (t.take n).all p = true →
      min n t.length ≤ (t.takeWhile p).length := by
  intro t
  induction t with
  | nil => intro n _; simp
  | cons c r ih =>
    intro n hn
    cases n with
    | zero => simp
    | succ m =>
      simp only [List.take_succ_cons, List.all_cons, Bool.and_eq_true] at hn
      simp only [List.takeWhile_cons, hn.1, if_true, List.length_cons]
      have := ih m hn.2
      omega

theorem head_drop_inside (p : Char → Bool) :
    ∀ (t : Str) (i : Nat), i < (t.takeWhile p).length →
      ∃ c, (t.drop i).head? = some c ∧ p c = true := by
  intro t
  induction t with
  | nil => intro i hi; simp at hi
  | cons c r ih =>
    intro i hi
    by_cases hc : p c = true
    · cases i with
      | zero => exact ⟨c, rfl, hc⟩
      | succ j =>
        simp only [List.takeWhile_cons, hc, if_true, List.length_cons] at hi
        simpa using ih j (by omega)
    · simp [List.takeWhile_cons, hc] at hi

theorem head_drop_boundary (p : Char → Bool) :
    ∀ (t : Str) {c : Char},
      (t.drop ((t.takeWhile p).length)).head? = some c → p c = false := by
  intro t
  induction t with
  | nil => intro c h; simp at h
  | cons a r ih =>
    intro c h
    by_cases ha : p a = true
    · simp only [List.takeWhile_cons, ha, if_true, List.length_cons, List.drop_succ_cons] at h
      exact ih h
    · simp only [List.takeWhile_cons, ha, Bool.false_eq_true, if_false, List.length_nil,
        List.drop_zero, List.head?_cons, Option.some.injEq] at h
      subst h
      simp [ha]

theorem testHeading_iff (t : Str) :
    testHeading t = true ↔
      1 ≤ countHashes t ∧ countHashes t ≤ 4 ∧
        (t.drop (countHashes t)).head?.any isJsWs = true := by
  unfold testHeading
  rw [List.any_eq_true]
  constructor
  · rintro ⟨i, hi, hf⟩
    rw [List.mem_range] at hi
    rw [Bool.and_eq_true] at hf
    obtain ⟨hall, hws⟩ := hf
    obtain ⟨w, hw, hpw⟩ := head_any_eq_true.mp hws
    have hne : t.drop (i + 1) ≠ [] := by
      intro hnil
      rw [hnil] at hw
      simp at hw
    have hlen : i + 1 ≤ t.length := by
      by_contra hgt
      exact hne (List.drop_eq_nil_of_le (by omega))
    have hle : i + 1 ≤ countHashes t := by
      have := all_take_le_takeWhile (fun c => decide (c = '#')) t (i + 1) hall
      unfold countHashes
      omega
    have heq : i + 1 = countHashes t := by
      by_contra hne2
      have hlt : i + 1 < (t.takeWhile fun c => decide (c = '#')).length := by
        unfold countHashes at hle hne2
        omega
      obtain ⟨c, hc, hpc⟩ := head_drop_inside _ t (i + 1) hlt
      rw [hw] at hc
      obtain rfl : w = c := by simpa using hc
      have : w = '#' := by simpa using hpc
      subst this
      simp [isJsWs] at hpw
    refine ⟨by omega, by omega, ?_⟩
    rw [← heq]
    exact hws
  · rintro ⟨h1, h4, hws⟩
    refine ⟨countHashes t - 1, ?_, ?_⟩
    · rw [List.mem_range]
      omega
    · have hsucc : countHashes t - 1 + 1 = countHashes t := by omega
      rw [Bool.and_eq_true, hsucc]
      refine ⟨?_, hws⟩
      exact takeWhile_take_all _ t (countHashes t) le_rfl

theorem testNumbered_iff (t : Str) :
    testNumbered t = true ↔
      1 ≤ countDigits t ∧
        (t.drop (countDigits t)).head?.any (fun c => c = '.' || c = ')') = true ∧
        (t.drop (countDigits t + 1)).head?.any isJsWs = true := by
  unfold testNumbered
  rw [List.any_eq_true]
  constructor
  · rintro ⟨i, hi, hf⟩
    rw [List.mem_range] at hi
    rw [Bool.and_eq_true, Bool.and_eq_true] at hf
    obtain ⟨⟨hall, hsep⟩, hws⟩ := hf
    have heq : i + 1 = countDigits t := by
      by_contra hne2
      have hlt : i + 1 < (t.takeWhile Char.isDigit).length := by
        unfold countDigits at hi hne2
        omega
      obtain ⟨c, hc, hpc⟩ := head_drop_inside _ t (i + 1) hlt
      obtain ⟨w, hw, hpw⟩ := head_any_eq_true.mp hsep
      rw [hw] at hc
      obtain rfl : w = c := by simpa using hc
      rcases (by simpa using hpw : w = '.' ∨ w = ')') with rfl | rfl
      · simp [Char.isDigit] at hpc
      · simp [Char.isDigit] at hpc
    refine ⟨by omega, ?_, ?_⟩
    · rw [← heq]; exact hsep
    · rw [← heq]; exact hws
  · rintro ⟨h1, hsep, hws⟩
    refine ⟨countDigits t - 1, ?_, ?_⟩
    · rw [List.mem_range]
      omega
    · have hsucc : countDigits t - 1 + 1 = countDigits t := by omega
      have hsucc2 : countDigits t - 1 + 2 = countDigits t + 1 := by omega
      rw [Bool.and_eq_true, Bool.and_eq_true, hsucc, hsucc2]
      exact ⟨⟨takeWhile_take_all _ t (countDigits t) le_rfl, hsep⟩, hws⟩

theorem jsTrim_eq_nil_iff (l : Str) : jsTrim l = [] ↔ l.all isJsWs = true := by
  unfold jsTrim
  rw [List.reverse_eq_nil_iff, List.dropWhile_eq_nil_iff, List.all_eq_true]
  constructor
  · intro h x hx
    have hsplit := List.takeWhile_append_dropWhile (p := isJsWs) (l := l)
    rw [← hsplit] at hx
    rcases List.mem_append.mp hx with hx | hx
    · exact List.mem_takeWhile_imp hx
    · exact h x (List.mem_reverse.mpr hx)
  · intro h x hx
    exact h x ((List.dropWhile_sublist isJsWs).subset (List.mem_reverse.mp hx))

theorem dropWhile_append_all (p : Char → Bool) :
    ∀ (a t : Str), a.all p = true → (a ++ t).dropWhile p = t.dropWhile p := by
  intro a
  induction a with
  | nil => intro t _; rfl
  | cons c a ih =>
    intro t ha
    simp only [List.all_cons, Bool.and_eq_true] at ha
    simp only [List.cons_append, List.dropWhile_cons, ha.1, if_true]
    exact ih t ha.2

theorem dropWhile_head_not (p : Char → Bool) :
    ∀ t : Str, t.head?.any p = false → t.dropWhile p = t := by
  intro t ht
  cases t with
  | nil => rfl
  | cons c r =>
    simp only [List.head?_cons, Option.any_some] at ht
    simp [List.dropWhile_cons, ht]

theorem replaceWsUnderscore_word (s t : Str) (hs : (s.all fun c => !isJsWs c) = true) :
    replaceWsUnderscore (s ++ t) = s ++ replaceWsUnderscore t := by
  induction s with
  | nil => rfl
  | cons c s ih =>
    simp only [List.all_cons, Bool.and_eq_true, Bool.not_eq_eq_eq_not, Bool.not_true] at hs
    simp only [List.cons_append, replaceWsUnderscore, hs.1, Bool.false_eq_true, if_false]
    rw [ih (by simpa using hs.2)]

theorem replaceWsUnderscore_gap (g t : Str) (hne : g ≠ []) (hg : g.all isJsWs = true)
    (ht : t.head?.any isJsWs = false) :
    replaceWsUnderscore (g ++ t) = '_' :: replaceWsUnderscore t := by
  cases g with
  | nil => exact absurd rfl hne
  | cons c g =>
    simp only [List.all_cons, Bool.and_eq_true] at hg
    simp only [List.cons_append, replaceWsUnderscore, hg.1, if_true]
    rw [dropWhile_append_all isJsWs g t hg.2, dropWhile_head_not isJsWs t ht]

theorem flatToks_head_not_ws :
    ∀ rest : List TitleTok, toksOk true rest = true →
      (flatToks rest).head?.any isJsWs = false := by
  intro rest h
  cases rest with
  | nil => rfl
  | cons tok r =>
    simp only [toksOk, Bool.and_eq_true] at h
    obtain ⟨⟨hok, hadj⟩, -⟩ := h
    cases tok with
    | gap s => simp [TitleTok.isGap] at hadj
    | word s =>
      simp only [tokOk, Bool.and_eq_true, decide_eq_true_eq] at hok
      obtain ⟨hne, hall⟩ := hok
      cases s with
      | nil => exact absurd rfl hne
      | cons c s =>
        simp only [List.all_cons, Bool.and_eq_true, Bool.not_eq_eq_eq_not, Bool.not_true] at hall
        simp [flatToks, TitleTok.flat, hall.1]

theorem replaceWsUnderscore_toks :
    ∀ (toks : List TitleTok) (flag : Bool), toksOk flag toks = true →
      replaceWsUnderscore (flatToks toks) = renderToks toks := by
  intro toks
  induction toks with
  | nil => intro flag _; simp [flatToks, renderToks, replaceWsUnderscore]
  | cons tok rest ih =>
    intro flag h
    simp only [toksOk, Bool.and_eq_true] at h
    obtain ⟨⟨hok, -⟩, hrest⟩ := h
    cases tok with
    | word s =>
      simp only [tokOk, Bool.and_eq_true, decide_eq_true_eq] at hok
      simp only [flatToks, TitleTok.flat, renderToks]
      rw [replaceWsUnderscore_word s (flatToks rest) hok.2]
      rw [ih (TitleTok.isGap (TitleTok.word s)) hrest]
    | gap s =>
      simp only [tokOk, Bool.and_eq_true, decide_eq_true_eq] at hok
      simp only [flatToks, TitleTok.flat, renderToks]
      rw [replaceWsUnderscore_gap s (flatToks rest) hok.1 hok.2
        (flatToks_head_not_ws rest hrest)]
      rw [ih (TitleTok.isGap (TitleTok.gap s)) hrest]

/-- C8: for every export, the download filename is the book title with
every maximal whitespace run replaced by a single underscore, followed by
a dot and the format string: whenever the title decomposes into words and
maximal whitespace gaps, the filename is the words joined with single
underscores, then `.` and the format. -/
theorem c8_export_filename :
    ∀ (b : Book) (format : Str) (toks : List TitleTok),
      toksOk false toks = true → b.title = flatToks toks →
      exportDownloadName b format = renderToks toks ++ '.' :: format := by
  intro b format toks htoks htitle
  unfold exportDownloadName
  rw [htitle, replaceWsUnderscore_toks toks false htoks]

/-- Witness for C8: a title with an interior double space and single
spaces becomes words joined by single underscores. -/
theorem c8_export_filename_witness :
    exportDownloadName
        { title := "My  Great Book".toList, status := "chapters_complete",
          language := "en", chapters := none, outline := none } "pdf".toList =
      renderToks
          [TitleTok.word "My".toList, TitleTok.gap "  ".toList,
           TitleTok.word "Great".toList, TitleTok.gap " ".toList,
           TitleTok.word "Book".toList] ++
        '.' :: "pdf".toList :=
  c8_export_filename
    { title := "My  Great Book".toList, status := "chapters_complete",
      language := "en", chapters := none, outline := none }
    "pdf".toList
    [TitleTok.word "My".toList, TitleTok.gap "  ".toList,
     TitleTok.word "Great".toList, TitleTok.gap " ".toList,
     TitleTok.word "Book".toList]
    (by decide) (by decide)

/-- C4: for a book with zero chapters no export is performed and no bytes
are produced — the preview/export controls are not rendered (export of any
format is reachable only when `chapters.length > 0`), and an export
request for a zero-chapter book yields the distinct `ExportError` rather
than a document. -/
theorem c4_export_zero_chapters :
    ∀ (render : Book → String → List Nat) (b : Book) (format : String),
      (chaptersOf b).length = 0 →
      exportControlsVisible b = false ∧
        exportBook render b format = Except.error ExportError.noChapters := by
  intro render b format h
  constructor
  · simp [exportControlsVisible, h]
  · simp [exportBook, h]

/-- Witness for C4 at a concrete zero-chapter book. -/
theorem c4_export_zero_chapters_witness :
    exportControlsVisible
        { title := [], status := "outline_ready", language := "en",
          chapters := none, outline := none } = false ∧
      exportBook (fun _ _ => [])
          { title := [], status := "outline_ready", language := "en",
            chapters := none, outline := none } "pdf" =
        Except.error ExportError.noChapters :=
  c4_export_zero_chapters (fun _ _ => [])
    { title := [], status := "outline_ready", language := "en",
      chapters := none, outline := none } "pdf" (by simp [chaptersOf])

/-- C5: the image-generation handler treats a fulfilled response as a
success (book refetch plus success toast) exactly when the response
carries a truthy `image_url`; every other outcome — a response with both
image sources exhausted, or a rejected request — shows an error toast and
performs no refetch. -/
theorem c5_generate_image_outcome :
    ∀ (n : Nat) (resp : Except (Option String) GenImageResp),
      ((handleGenerateImage n resp).toast.isSuccessToast = true ↔
        ∃ r url, resp = Except.ok r ∧ r.image_url = some url ∧ url ≠ "") ∧
      (handleGenerateImage n resp).refetched =
        (handleGenerateImage n resp).toast.isSuccessToast ∧
      ((handleGenerateImage n resp).toast.isSuccessToast = false →
        ∃ msg, (handleGenerateImage n resp).toast = ToastKind.error msg) := by
  intro n resp
  cases resp with
  | error d =>
    refine ⟨?_, rfl, ?_⟩
    · simp [handleGenerateImage, ToastKind.isSuccessToast]
    · intro _
      exact ⟨_, rfl⟩
  | ok r =>
    cases hru : r.image_url with
    | none =>
      have hf : jsTruthyStr r.image_url = false := by simp [jsTruthyStr, hru]
      refine ⟨?_, ?_, ?_⟩
      · simp [handleGenerateImage, jsTruthyStr, hf, ToastKind.isSuccessToast, hru]
      · simp [handleGenerateImage, hf, ToastKind.isSuccessToast]
      · intro _
        simp [handleGenerateImage, hf]
    | some v =>
      by_cases hv : v = ""
      · have hf : jsTruthyStr r.image_url = false := by simp [jsTruthyStr, hru, hv]
        refine ⟨?_, ?_, ?_⟩
        · simp [handleGenerateImage, jsTruthyStr, hf, ToastKind.isSuccessToast, hru, hv]
        · simp [handleGenerateImage, hf, ToastKind.isSuccessToast]
        · intro _
          simp [handleGenerateImage, hf]
      · have hf : jsTruthyStr r.image_url = true := by simp [jsTruthyStr, hru, hv]
        refine ⟨?_, ?_, ?_⟩
        · simp only [handleGenerateImage, hf, if_true, ToastKind.isSuccessToast, true_iff]
          exact ⟨r, v, rfl, hru, hv⟩
        · simp [handleGenerateImage, hf, ToastKind.isSuccessToast]
        · intro hfalse
          simp [handleGenerateImage, hf, ToastKind.isSuccessToast] at hfalse

/-- Witness for C5: a response carrying an image URL is a success, an
empty response is reported as an error with no refetch. -/
theorem c5_generate_image_outcome_witness :
    ((handleGenerateImage 3 (Except.ok { image_url := some "/api/images/b/3" })).toast.isSuccessToast = true) ∧
      ((handleGenerateImage 3 (Except.ok { image_url := none })).toast.isSuccessToast = false →
        ∃ msg, (handleGenerateImage 3 (Except.ok { image_url := none })).toast = ToastKind.error msg) :=
  ⟨(c5_generate_image_outcome 3 (Except.ok { image_url := some "/api/images/b/3" })).1.mpr
      ⟨{ image_url := some "/api/images/b/3" }, "/api/images/b/3", rfl, rfl, by decide⟩,
    (c5_generate_image_outcome 3 (Except.ok { image_url := none })).2.2⟩

/-- C6: the book-detail progress poll is installed exactly for a loaded
book whose status is `writing`, with a 5000 ms period; a polled result
whose status differs from `writing` is exactly what clears the interval,
after which the book is refetched once; a `writing` result or a rejected
request leaves the interval running.  (The React effect cleanup that also
clears the interval on unmount or dependency change is outside this
model.) -/
theorem c6_detail_polling :
    (∀ ob : Option Book, (bookDetailPollSetup ob).isSome = true ↔
        ∃ b, ob = some b ∧ b.status = "writing") ∧
      (∀ b : Book, b.status = "writing" → bookDetailPollSetup (some b) = some 5000) ∧
      (∀ r : Except Unit Progress,
        bookDetailPollTick r = { cleared := true, refetched := true } ↔
          ∃ p, r = Except.ok p ∧ p.status ≠ "writing") ∧
      (∀ p : Progress, p.status = "writing" →
        bookDetailPollTick (Except.ok p) = { cleared := false, refetched := false }) ∧
      (∀ e : Unit, bookDetailPollTick (Except.error e) = { cleared := false, refetched := false }) := by
  refine ⟨?_, ?_, ?_, ?_, ?_⟩
  · intro ob
    cases ob with
    | none => simp [bookDetailPollSetup]
    | some b =>
      by_cases hb : b.status = "writing" <;> simp [bookDetailPollSetup, hb]
  · intro b hb
    simp [bookDetailPollSetup, hb]
  · intro r
    cases r with
    | error e => simp [bookDetailPollTick]
    | ok p =>
      by_cases hp : p.status = "writing" <;> simp [bookDetailPollTick, hp]
  · intro p hp
    simp [bookDetailPollTick, hp]
  · intro e
    rfl

/-- Witness for C6 at concrete books and poll results. -/
theorem c6_detail_polling_witness :
    bookDetailPollSetup
        (some { title := [], status := "writing", language := "fr",
                chapters := none, outline := none }) = some 5000 ∧
      bookDetailPollTick
          (Except.ok { status := "chapters_complete", error := none,
                       generated_chapters := 4, total_chapters := 4 }) =
        { cleared := true, refetched := true } :=
  ⟨c6_detail_polling.2.1 _ rfl,
    (c6_detail_polling.2.2.1 _).mpr
      ⟨{ status := "chapters_complete", error := none,
         generated_chapters := 4, total_chapters := 4 }, rfl, by decide⟩⟩

/-- C7: one tick of the creation-flow poll treats exactly
`chapters_complete` and `error` as terminal — `chapters_complete` stops
polling and navigates to the finished book, `error` stops polling and
surfaces the recorded error message — while every other status (such as
`writing` or `outline_approved` or an unknown value) and every rejected
request keeps polling, on a 5000 ms interval. -/
theorem c7_creator_poll_terminal :
    (∀ p : Progress, creatorPollStep (Except.ok p) = CreatorPollAction.stopAndNavigate ↔
        p.status = "chapters_complete") ∧
      (∀ p : Progress, p.status = "error" →
        creatorPollStep (Except.ok p) =
          CreatorPollAction.stopAndShowError (jsOrDefault p.error "Error during generation")) ∧
      (∀ p : Progress,
        (∃ m, creatorPollStep (Except.ok p) = CreatorPollAction.stopAndShowError m) ↔
          p.status = "error") ∧
      (∀ p : Progress, p.status ≠ "chapters_complete" → p.status ≠ "error" →
        creatorPollStep (Except.ok p) = CreatorPollAction.keepPolling) ∧
      (∀ e : Unit, creatorPollStep (Except.error e) = CreatorPollAction.keepPolling) ∧
      creatorPollIntervalMs = 5000 := by
  refine ⟨?_, ?_, ?_, ?_, ?_, rfl⟩
  · intro p
    by_cases h1 : p.status = "chapters_complete"
    · simp [creatorPollStep, h1]
    · by_cases h2 : p.status = "error" <;> simp [creatorPollStep, h1, h2]
  · intro p h2
    have h1 : p.status ≠ "chapters_complete" := by rw [h2]; decide
    simp [creatorPollStep, h1, h2]
  · intro p
    by_cases h1 : p.status = "chapters_complete"
    · simp [creatorPollStep, h1]
    · by_cases h2 : p.status = "error" <;> simp [creatorPollStep, h1, h2]
  · intro p h1 h2
    simp [creatorPollStep, h1, h2]
  · intro e
    rfl

/-- Witness for C7 at each concrete status kind. -/
theorem c7_creator_poll_terminal_witness :
    creatorPollStep
        (Except.ok { status := "writing", error := none,
                     generated_chapters := 1, total_chapters := 4 }) =
      CreatorPollAction.keepPolling ∧
    creatorPollStep
        (Except.ok { status := "error", error := some "chapter 3 failed",
                     generated_chapters := 2, total_chapters := 4 }) =
      CreatorPollAction.stopAndShowError "chapter 3 failed" ∧
    creatorPollStep
        (Except.ok { status := "chapters_complete", error := none,
                     generated_chapters := 4, total_chapters := 4 }) =
      CreatorPollAction.stopAndNavigate :=
  ⟨c7_creator_poll_terminal.2.2.2.1 _ (by decide) (by decide),
    c7_creator_poll_terminal.2.1 _ rfl,
    (c7_creator_poll_terminal.1 _).mpr rfl⟩

/-- C9: `getImageSrc` returns null for an absent or empty chapter image
URL, prefixes the backend base URL exactly when the URL starts with
`/api`, and returns every other URL (external stock URLs included)
unchanged. -/
theorem c9_get_image_src :
    ∀ (backendUrl u : Str),
      getImageSrc backendUrl none = none ∧
      getImageSrc backendUrl (some []) = none ∧
      (u ≠ [] → leadsWith ['/', 'a', 'p', 'i'] u = true →
        getImageSrc backendUrl (some u) = some (backendUrl ++ u)) ∧
      (u ≠ [] → leadsWith ['/', 'a', 'p', 'i'] u = false →
        getImageSrc backendUrl (some u) = some u) := by
  intro backendUrl u
  refine ⟨rfl, rfl, ?_, ?_⟩
  · intro hne hpre
    simp [getImageSrc, hne, hpre]
  · intro hne hpre
    simp [getImageSrc, hne, hpre]

/-- Witness for C9: an `/api` URL is prefixed, an external stock URL is
untouched. -/
theorem c9_get_image_src_witness :
    getImageSrc "http://backend".toList (some "/api/images/b/1".toList) =
        some ("http://backend".toList ++ "/api/images/b/1".toList) ∧
      getImageSrc "http://backend".toList (some "https://images.unsplash.com/x".toList) =
        some "https://images.unsplash.com/x".toList :=
  ⟨(c9_get_image_src "http://backend".toList "/api/images/b/1".toList).2.2.1
      (by decide) (by decide),
    (c9_get_image_src "http://backend".toList "https://images.unsplash.com/x".toList).2.2.2
      (by decide) (by decide)⟩

/-- C10: both writing-progress fractions are total — the denominator
`max(total, 1)` is always positive, so no division by zero occurs even
for an empty outline — the book-detail fraction is never negative, and
with no chapters and an empty outline both fractions are defined and
equal zero. -/
theorem c10_progress_defined :
    ∀ (b : Book) (p : Progress),
      0 < max (outlineOf b).length 1 ∧
      (0 : ℚ) ≤ bookDetailProgress b ∧
      (outlineOf b = [] → chaptersOf b = [] → bookDetailProgress b = 0) ∧
      (p.total_chapters = 0 → p.generated_chapters = 0 → creatorProgressValue p = 0) := by
  intro b p
  refine ⟨?_, ?_, ?_, ?_⟩
  · omega
  · unfold bookDetailProgress
    positivity
  · intro h1 h2
    simp [bookDetailProgress, h1, h2]
  · intro h1 h2
    simp [creatorProgressValue, h1, h2]

theorem leadsWith_head_ne {p c : Char} (ps cs : Str) (h : ¬ c = p) :
    leadsWith (p :: ps) (c :: cs) = false := by
  simp only [leadsWith]
  rw [if_neg fun he => h he.symm]

theorem leadsWith_cons_same (p : Char) (ps l : Str) :
    leadsWith (p :: ps) (p :: l) = leadsWith ps l := by
  simp [leadsWith]

theorem leadsWith_nil_right (p : Char) (ps : Str) :
    leadsWith (p :: ps) [] = false := rfl

theorem leadsWith_self_append (p t : Str) : leadsWith p (p ++ t) = true := by
  induction p with
  | nil => rfl
  | cons c ps ih => simpa [leadsWith_cons_same] using ih

theorem leadsWith_head_not {ps l : Str} (h : l.head? ≠ some '*') :
    leadsWith ('*' :: ps) l = false := by
  cases l with
  | nil => rfl
  | cons c cs =>
    apply leadsWith_head_ne
    intro he
    exact h (by rw [he]; rfl)

theorem lazyClose_exact (pr : Str) :
    ∀ (a t : Str), starFree a = true → dotOnly a = true →
      lazyClose ('*' :: pr) (a ++ ('*' :: pr) ++ t) = some (a, t) := by
  intro a
  induction a with
  | nil =>
    intro t _ _
    simp only [List.nil_append, List.cons_append, lazyClose]
    rw [if_pos (by simpa [List.cons_append] using leadsWith_self_append ('*' :: pr) t)]
    simp [List.drop_left ('*' :: pr) t]
  | cons c a ih =>
    intro t hs hd
    simp only [starFree, dotOnly, List.all_cons, Bool.and_eq_true, decide_eq_true_eq] at hs hd
    simp only [List.cons_append, lazyClose, leadsWith_head_ne _ _ hs.1, Bool.false_eq_true,
      if_false, hd.1, if_true]
    have hrec := ih t (by simpa [starFree] using hs.2) (by simpa [dotOnly] using hd.2)
    simp only [List.append_eq, List.append_assoc] at hrec ⊢
    rw [hrec]

theorem lazyBody_exact (pr : Str) (x t : Str) (hx : x ≠ []) (hs : starFree x = true)
    (hd : dotOnly x = true) :
    lazyBody ('*' :: pr) (x ++ ('*' :: pr) ++ t) = some (x, t) := by
  cases x with
  | nil => exact absurd rfl hx
  | cons c xs =>
    simp only [starFree, dotOnly, List.all_cons, Bool.and_eq_true, decide_eq_true_eq] at hs hd
    simp only [List.cons_append, lazyBody, hd.1, if_true]
    rw [show xs ++ '*' :: pr ++ t = xs ++ ('*' :: pr) ++ t from rfl]
    rw [lazyClose_exact pr xs t (by simpa [starFree] using hs.2) (by simpa [dotOnly] using hd.2)]

theorem replWrap_skip (pr pre post : Str) :
    ∀ (a t : Str), starFree a = true →
      replWrap ('*' :: pr) pre post (a ++ t) = a ++ replWrap ('*' :: pr) pre post t := by
  intro a
  induction a with
  | nil => intro t _; rfl
  | cons c a ih =>
    intro t ha
    simp only [starFree, List.all_cons, Bool.and_eq_true, decide_eq_true_eq] at ha
    simp only [List.cons_append, replWrap, leadsWith_head_ne _ _ ha.1, Bool.false_eq_true,
      if_false]
    rw [ih t (by simpa [starFree] using ha.2)]

theorem replWrap_match (pr pre post : Str) (x t : Str) (hx : x ≠ []) (hs : starFree x = true)
    (hd : dotOnly x = true) :
    replWrap ('*' :: pr) pre post (('*' :: pr) ++ x ++ ('*' :: pr) ++ t) =
      pre ++ x ++ post ++ replWrap ('*' :: pr) pre post t := by
  have hsub : ('*' :: pr) ++ x ++ ('*' :: pr) ++ t = '*' :: (pr ++ (x ++ ('*' :: pr) ++ t)) := by
    simp [List.cons_append, List.append_assoc]
  rw [hsub]
  simp only [replWrap]
  rw [if_pos ?hopen]
  case hopen =>
    have := leadsWith_self_append ('*' :: pr) (x ++ ('*' :: pr) ++ t)
    simpa [List.cons_append, List.append_assoc] using this
  have hdrop : ('*' :: (pr ++ (x ++ ('*' :: pr) ++ t))).drop ('*' :: pr).length =
      x ++ ('*' :: pr) ++ t := by
    have := List.drop_left ('*' :: pr) (x ++ ('*' :: pr) ++ t)
    simpa [List.cons_append, List.append_assoc] using this
  rw [hdrop, lazyBody_exact pr x t hx hs hd]

theorem replCleanTD_starFree :
    ∀ l : Str, starFree l = true → replCleanTD l = l := by
  intro l
  induction l with
  | nil => intro _; simp [replCleanTD]
  | cons c rest ih =>
    intro h
    simp only [starFree, List.all_cons, Bool.and_eq_true, decide_eq_true_eq] at h
    simp only [replCleanTD, leadsWith_head_ne _ _ h.1, Bool.false_eq_true, if_false]
    rw [ih (by simpa [starFree] using h.2)]

theorem replCleanS_starFree :
    ∀ l : Str, starFree l = true → replCleanS l = l := by
  intro l
  induction l with
  | nil => intro _; simp [replCleanS]
  | cons c rest ih =>
    intro h
    simp only [starFree, List.all_cons, Bool.and_eq_true, decide_eq_true_eq] at h
    simp only [replCleanS, h.1, if_false]
    rw [ih (by simpa [starFree] using h.2)]

theorem cleanInline_starFree (l : Str) (h : starFree l = true) : cleanInline l = l := by
  unfold cleanInline
  rw [replCleanTD_starFree l h, replCleanS_starFree l h]

theorem replWrap3_skip_em (pre post : Str) (x t : Str) (hx : x ≠ []) (hs : starFree x = true)
    (ht : t.head? ≠ some '*') :
    replWrap ['*', '*', '*'] pre post ('*' :: (x ++ '*' :: t)) =
      '*' :: (x ++ '*' :: replWrap ['*', '*', '*'] pre post t) := by
  cases x with
  | nil => exact absurd rfl hx
  | cons x0 xs =>
    simp only [starFree, List.all_cons, Bool.and_eq_true, decide_eq_true_eq] at hs
    have h1 : leadsWith ['*', '*', '*'] ('*' :: (x0 :: (xs ++ '*' :: t))) = false := by
      rw [leadsWith_cons_same]
      exact leadsWith_head_ne _ _ hs.1
    have h2 : leadsWith ['*', '*', '*'] (x0 :: (xs ++ '*' :: t)) = false :=
      leadsWith_head_ne _ _ hs.1
    have h3 : leadsWith ['*', '*', '*'] ('*' :: t) = false := by
      rw [leadsWith_cons_same]
      exact leadsWith_head_not ht
    simp only [List.cons_append, replWrap, h1, h2, Bool.false_eq_true, if_false]
    rw [replWrap_skip ['*', '*'] pre post xs ('*' :: t) (by simpa [starFree] using hs.2)]
    simp only [replWrap, h3, Bool.false_eq_true, if_false]

theorem replWrap3_skip_strong (pre post : Str) (x t : Str) (hx : x ≠ [])
    (hs : starFree x = true) (ht : t.head? ≠ some '*') :
    replWrap ['*', '*', '*'] pre post ('*' :: '*' :: (x ++ '*' :: '*' :: t)) =
      '*' :: '*' :: (x ++ '*' :: '*' :: replWrap ['*', '*', '*'] pre post t) := by
  cases x with
  | nil => exact absurd rfl hx
  | cons x0 xs =>
    simp only [starFree, List.all_cons, Bool.and_eq_true, decide_eq_true_eq] at hs
    have h1 : leadsWith ['*', '*', '*'] ('*' :: '*' :: (x0 :: (xs ++ '*' :: '*' :: t))) = false := by
      rw [leadsWith_cons_same, leadsWith_cons_same]
      exact leadsWith_head_ne _ _ hs.1
    have h2 : leadsWith ['*', '*', '*'] ('*' :: (x0 :: (xs ++ '*' :: '*' :: t))) = false := by
      rw [leadsWith_cons_same]
      exact leadsWith_head_ne _ _ hs.1
    have h3 : leadsWith ['*', '*', '*'] (x0 :: (xs ++ '*' :: '*' :: t)) = false :=
      leadsWith_head_ne _ _ hs.1
    have h4 : leadsWith ['*', '*', '*'] ('*' :: '*' :: t) = false := by
      rw [leadsWith_cons_same, leadsWith_cons_same]
      exact leadsWith_head_not ht
    have h5 : leadsWith ['*', '*', '*'] ('*' :: t) = false := by
      rw [leadsWith_cons_same]
      exact leadsWith_head_not ht
    simp only [List.cons_append, replWrap, h1, h2, h3, Bool.false_eq_true, if_false]
    rw [replWrap_skip ['*', '*'] pre post xs ('*' :: '*' :: t) (by simpa [starFree] using hs.2)]
    simp only [replWrap, h4, h5, Bool.false_eq_true, if_false]

theorem replWrap2_skip_em (pre post : Str) (x t : Str) (hx : x ≠ []) (hs : starFree x = true)
    (ht : t.head? ≠ some '*') :
    replWrap ['*', '*'] pre post ('*' :: (x ++ '*' :: t)) =
      '*' :: (x ++ '*' :: replWrap ['*', '*'] pre post t) := by
  cases x with
  | nil => exact absurd rfl hx
  | cons x0 xs =>
    simp only [starFree, List.all_cons, Bool.and_eq_true, decide_eq_true_eq] at hs
    have h1 : leadsWith ['*', '*'] ('*' :: (x0 :: (xs ++ '*' :: t))) = false := by
      rw [leadsWith_cons_same]
      exact leadsWith_head_ne _ _ hs.1
    have h2 : leadsWith ['*', '*'] (x0 :: (xs ++ '*' :: t)) = false :=
      leadsWith_head_ne _ _ hs.1
    have h3 : leadsWith ['*', '*'] ('*' :: t) = false := by
      rw [leadsWith_cons_same]
      exact leadsWith_head_not ht
    simp only [List.cons_append, replWrap, h1, h2, Bool.false_eq_true, if_false]
    rw [replWrap_skip ['*'] pre post xs ('*' :: t) (by simpa [starFree] using hs.2)]
    simp only [replWrap, h3, Bool.false_eq_true, if_false]

theorem singleClose_exact :
    ∀ (a : Str) (prev : Char) (t : Str), starFree a = true → dotOnly a = true →
      prev ≠ '*' → t.head? ≠ some '*' →
      singleClose prev (a ++ '*' :: t) = some (a, t) := by
  intro a
  induction a with
  | nil =>
    intro prev t _ _ hprev ht
    simp only [List.nil_append, singleClose]
    rw [if_pos (by exact ⟨by trivial, hprev, ht⟩)]
  | cons c a ih =>
    intro prev t hs hd hprev ht
    simp only [starFree, dotOnly, List.all_cons, Bool.and_eq_true, decide_eq_true_eq] at hs hd
    simp only [List.cons_append, singleClose]
    rw [if_neg fun hcon => hs.1 hcon.1]
    simp only [hd.1, if_true]
    have hrec := ih c t (by simpa [starFree] using hs.2) (by simpa [dotOnly] using hd.2) hs.1 ht
    simp only [List.append_eq] at hrec ⊢
    rw [hrec]

theorem singleBody_exact (x t : Str) (hx : x ≠ []) (hs : starFree x = true)
    (hd : dotOnly x = true) (ht : t.head? ≠ some '*') :
    singleBody (x ++ '*' :: t) = some (x, t) := by
  cases x with
  | nil => exact absurd rfl hx
  | cons x0 xs =>
    simp only [starFree, dotOnly, List.all_cons, Bool.and_eq_true, decide_eq_true_eq] at hs hd
    simp only [List.cons_append, singleBody, hd.1, if_true]
    rw [singleClose_exact xs x0 t (by simpa [starFree] using hs.2)
      (by simpa [dotOnly] using hd.2) hs.1 ht]

theorem replSingle_skip :
    ∀ (a : Str) (p : Option Char) (t : Str), starFree a = true →
      replSingle p (a ++ t) = a ++ replSingle (lastOr p a) t := by
  intro a
  induction a with
  | nil => intro p t _; rfl
  | cons c a ih =>
    intro p t hs
    simp only [starFree, List.all_cons, Bool.and_eq_true, decide_eq_true_eq] at hs
    simp only [List.cons_append, replSingle, lastOr]
    rw [if_neg fun hcon => hs.1 hcon.1]
    rw [ih (some c) t (by simpa [starFree] using hs.2)]

theorem replSingle_match (p : Option Char) (x t : Str) (hp : p ≠ some '*') (hx : x ≠ [])
    (hs : starFree x = true) (hd : dotOnly x = true) (ht : t.head? ≠ some '*') :
    replSingle p ('*' :: (x ++ '*' :: t)) =
      "<em>".toList ++ x ++ "</em>".toList ++ replSingle (some '*') t := by
  cases x with
  | nil => exact absurd rfl hx
  | cons x0 xs =>
    have hs' := hs
    simp only [starFree, List.all_cons, Bool.and_eq_true, decide_eq_true_eq] at hs'
    have hb := singleBody_exact (x0 :: xs) t hx hs hd ht
    simp only [List.cons_append] at hb
    simp only [List.cons_append, replSingle]
    rw [if_pos (by exact ⟨by trivial, hp, by simp [hs'.1]⟩)]
    rw [hb]

theorem lastOr_ne_star :
    ∀ (a : Str) (p : Option Char), a ≠ [] → starFree a = true → lastOr p a ≠ some '*' := by
  intro a
  induction a with
  | nil => intro p h _; exact absurd rfl h
  | cons c a ih =>
    intro p _ hs
    simp only [starFree, List.all_cons, Bool.and_eq_true, decide_eq_true_eq] at hs
    cases a with
    | nil =>
      simp only [lastOr]
      exact fun he => hs.1 (Option.some.inj he)
    | cons c2 a2 =>
      simp only [lastOr]
      have := ih (some c) (by simp) (by simpa [starFree] using hs.2)
      simpa [lastOr] using this

theorem starFree_append (a b : Str) :
    starFree (a ++ b) = (starFree a && starFree b) := by
  simp [starFree, List.all_append]

theorem mdOf_head_after_emph :
    ∀ rest : List Seg, wfChain true rest = true → (mdOf rest).head? ≠ some '*' := by
  intro rest h
  cases rest with
  | nil => simp [mdOf]
  | cons s r =>
    simp only [wfChain, Bool.and_eq_true] at h
    obtain ⟨⟨hok, hadj⟩, -⟩ := h
    cases s with
    | lit a =>
      simp only [segOk, Bool.and_eq_true, decide_eq_true_eq] at hok
      obtain ⟨hne, hsf⟩ := hok
      cases a with
      | nil => exact absurd rfl hne
      | cons c as =>
        simp only [starFree, List.all_cons, Bool.and_eq_true, decide_eq_true_eq] at hsf
        simp only [mdOf, Seg.md, List.cons_append, List.head?_cons]
        exact fun he => hsf.1 (Option.some.inj he)
    | em a => simp [Seg.isEmph] at hadj
    | strong a => simp [Seg.isEmph] at hadj
    | strongem a => simp [Seg.isEmph] at hadj

theorem md1Of_head_after_emph :
    ∀ rest : List Seg, wfChain true rest = true → (md1Of rest).head? ≠ some '*' := by
  intro rest h
  cases rest with
  | nil => simp [md1Of]
  | cons s r =>
    simp only [wfChain, Bool.and_eq_true] at h
    obtain ⟨⟨hok, hadj⟩, -⟩ := h
    cases s with
    | lit a =>
      simp only [segOk, Bool.and_eq_true, decide_eq_true_eq] at hok
      obtain ⟨hne, hsf⟩ := hok
      cases a with
      | nil => exact absurd rfl hne
      | cons c as =>
        simp only [starFree, List.all_cons, Bool.and_eq_true, decide_eq_true_eq] at hsf
        simp only [md1Of, Seg.md1, List.cons_append, List.head?_cons]
        exact fun he => hsf.1 (Option.some.inj he)
    | em a => simp [Seg.isEmph] at hadj
    | strong a => simp [Seg.isEmph] at hadj
    | strongem a => simp [Seg.isEmph] at hadj

theorem md2Of_head_after_emph :
    ∀ rest : List Seg, wfChain true rest = true → (md2Of rest).head? ≠ some '*' := by
  intro rest h
  cases rest with
  | nil => simp [md2Of]
  | cons s r =>
    simp only [wfChain, Bool.and_eq_true] at h
    obtain ⟨⟨hok, hadj⟩, -⟩ := h
    cases s with
    | lit a =>
      simp only [segOk, Bool.and_eq_true, decide_eq_true_eq] at hok
      obtain ⟨hne, hsf⟩ := hok
      cases a with
      | nil => exact absurd rfl hne
      | cons c as =>
        simp only [starFree, List.all_cons, Bool.and_eq_true, decide_eq_true_eq] at hsf
        simp only [md2Of, Seg.md2, List.cons_append, List.head?_cons]
        exact fun he => hsf.1 (Option.some.inj he)
    | em a => simp [Seg.isEmph] at hadj
    | strong a => simp [Seg.isEmph] at hadj
    | strongem a => simp [Seg.isEmph] at hadj

theorem stage_triple :
    ∀ (segs : List Seg) (prevE : Bool), wfChain prevE segs = true →
      replTriple (mdOf segs) = md1Of segs := by
  intro segs
  induction segs with
  | nil =>
    intro prevE _
    simp [replTriple, replWrap, mdOf, md1Of]
  | cons s rest ih =>
    intro prevE h
    simp only [wfChain, Bool.and_eq_true] at h
    obtain ⟨⟨hok, hadj⟩, hrest⟩ := h
    simp only [replTriple] at ih ⊢
    cases s with
    | lit a =>
      simp only [segOk, Bool.and_eq_true, decide_eq_true_eq] at hok
      simp only [mdOf, md1Of, Seg.md, Seg.md1]
      rw [replWrap_skip ['*', '*'] _ _ a (mdOf rest) hok.2]
      rw [ih false hrest]
    | strongem x =>
      simp only [segOk, Bool.and_eq_true, decide_eq_true_eq] at hok
      obtain ⟨⟨hne, hsf⟩, hdot⟩ := hok
      simp only [mdOf, md1Of, Seg.md, Seg.md1]
      have hm := replWrap_match ['*', '*'] "<strong><em>".toList "</em></strong>".toList
        x (mdOf rest) hne hsf hdot
      simp only [List.cons_append, List.nil_append, List.append_assoc] at hm ⊢
      rw [hm, ih true hrest]
    | strong x =>
      simp only [segOk, Bool.and_eq_true, decide_eq_true_eq] at hok
      obtain ⟨⟨hne, hsf⟩, hdot⟩ := hok
      simp only [mdOf, md1Of, Seg.md, Seg.md1]
      have hsk := replWrap3_skip_strong "<strong><em>".toList "</em></strong>".toList
        x (mdOf rest) hne hsf (mdOf_head_after_emph rest hrest)
      simp only [List.cons_append, List.nil_append, List.append_assoc] at hsk ⊢
      rw [hsk, ih true hrest]
    | em x =>
      simp only [segOk, Bool.and_eq_true, decide_eq_true_eq] at hok
      obtain ⟨⟨hne, hsf⟩, hdot⟩ := hok
      simp only [mdOf, md1Of, Seg.md, Seg.md1]
      have hsk := replWrap3_skip_em "<strong><em>".toList "</em></strong>".toList
        x (mdOf rest) hne hsf (mdOf_head_after_emph rest hrest)
      simp only [List.cons_append, List.nil_append, List.append_assoc] at hsk ⊢
      rw [hsk, ih true hrest]

theorem stage_double :
    ∀ (segs : List Seg) (prevE : Bool), wfChain prevE segs = true →
      replDouble (md1Of segs) = md2Of segs := by
  intro segs
  induction segs with
  | nil =>
    intro prevE _
    simp [replDouble, replWrap, md1Of, md2Of]
  | cons s rest ih =>
    intro prevE h
    simp only [wfChain, Bool.and_eq_true] at h
    obtain ⟨⟨hok, hadj⟩, hrest⟩ := h
    simp only [replDouble] at ih ⊢
    cases s with
    | lit a =>
      simp only [segOk, Bool.and_eq_true, decide_eq_true_eq] at hok
      simp only [md1Of, md2Of, Seg.md1, Seg.md2]
      rw [replWrap_skip ['*'] _ _ a (md1Of rest) hok.2]
      rw [ih false hrest]
    | strongem x =>
      simp only [segOk, Bool.and_eq_true, decide_eq_true_eq] at hok
      obtain ⟨⟨hne, hsf⟩, hdot⟩ := hok
      simp only [md1Of, md2Of, Seg.md1, Seg.md2]
      have hch : starFree ("<strong><em>".toList ++ x ++ "</em></strong>".toList) = true := by
        rw [starFree_append, starFree_append, hsf]
        decide
      rw [replWrap_skip ['*'] "<strong>".toList "</strong>".toList
        ("<strong><em>".toList ++ x ++ "</em></strong>".toList) (md1Of rest) hch]
      rw [ih true hrest]
    | strong x =>
      simp only [segOk, Bool.and_eq_true, decide_eq_true_eq] at hok
      obtain ⟨⟨hne, hsf⟩, hdot⟩ := hok
      simp only [md1Of, md2Of, Seg.md1, Seg.md2]
      have hm := replWrap_match ['*'] "<strong>".toList "</strong>".toList
        x (md1Of rest) hne hsf hdot
      simp only [List.cons_append, List.nil_append, List.append_assoc] at hm ⊢
      rw [hm, ih true hrest]
    | em x =>
      simp only [segOk, Bool.and_eq_true, decide_eq_true_eq] at hok
      obtain ⟨⟨hne, hsf⟩, hdot⟩ := hok
      simp only [md1Of, md2Of, Seg.md1, Seg.md2]
      have hsk := replWrap2_skip_em "<strong>".toList "</strong>".toList
        x (md1Of rest) hne hsf (md1Of_head_after_emph rest hrest)
      simp only [List.cons_append, List.nil_append, List.append_assoc] at hsk ⊢
      rw [hsk, ih true hrest]

theorem stage_single :
    ∀ (segs : List Seg) (p : Option Char) (prevE : Bool), wfChain prevE segs = true →
      (prevE = true ∨ p ≠ some '*') → replSingle p (md2Of segs) = htmlOf segs := by
  intro segs
  induction segs with
  | nil =>
    intro p prevE _ _
    simp [replSingle, md2Of, htmlOf]
  | cons s rest ih =>
    intro p prevE h hp
    simp only [wfChain, Bool.and_eq_true] at h
    obtain ⟨⟨hok, hadj⟩, hrest⟩ := h
    cases s with
    | lit a =>
      simp only [segOk, Bool.and_eq_true, decide_eq_true_eq] at hok
      simp only [md2Of, htmlOf, Seg.md2, Seg.html]
      rw [replSingle_skip a p (md2Of rest) hok.2]
      rw [ih (lastOr p a) false hrest (Or.inr (lastOr_ne_star a p hok.1 hok.2))]
    | em x =>
      simp only [segOk, Bool.and_eq_true, decide_eq_true_eq] at hok
      obtain ⟨⟨hne, hsf⟩, hdot⟩ := hok
      have hprev : p ≠ some '*' := by
        rcases hp with hpe | hp
        · simp [Seg.isEmph, hpe] at hadj
        · exact hp
      simp only [md2Of, htmlOf, Seg.md2, Seg.html]
      have hm := replSingle_match p x (md2Of rest) hprev hne hsf hdot
        (md2Of_head_after_emph rest hrest)
      simp only [List.cons_append, List.nil_append, List.append_assoc] at hm ⊢
      rw [hm, ih (some '*') true hrest (Or.inl rfl)]
    | strong x =>
      simp only [segOk, Bool.and_eq_true, decide_eq_true_eq] at hok
      obtain ⟨⟨hne, hsf⟩, hdot⟩ := hok
      simp only [md2Of, htmlOf, Seg.md2, Seg.html]
      have hch : starFree ("<strong>".toList ++ x ++ "</strong>".toList) = true := by
        rw [starFree_append, starFree_append, hsf]
        decide
      rw [replSingle_skip ("<strong>".toList ++ x ++ "</strong>".toList) p (md2Of rest) hch]
      rw [ih _ true hrest (Or.inl rfl)]
    | strongem x =>
      simp only [segOk, Bool.and_eq_true, decide_eq_true_eq] at hok
      obtain ⟨⟨hne, hsf⟩, hdot⟩ := hok
      simp only [md2Of, htmlOf, Seg.md2, Seg.html]
      have hch : starFree ("<strong><em>".toList ++ x ++ "</em></strong>".toList) = true := by
        rw [starFree_append, starFree_append, hsf]
        decide
      rw [replSingle_skip ("<strong><em>".toList ++ x ++ "</em></strong>".toList) p
        (md2Of rest) hch]
      rw [ih _ true hrest (Or.inl rfl)]

/-- C2: on every paragraph made of well-formed runs, the three-stage
inline replacement turns each `***x***` run into bold italic, each
`**x**` run into bold and each `*x*` run into italic — the negative
lookarounds keeping single-asterisk emphasis away from the asterisks of
double runs — while every character outside the emphasis runs is left
literal. -/
theorem c2_inline_emphasis :
    ∀ segs : List Seg, wfSegs segs = true → inlineHtml (mdOf segs) = htmlOf segs := by
  intro segs h
  unfold wfSegs at h
  unfold inlineHtml
  rw [show replTriple (mdOf segs) = md1Of segs from stage_triple segs false h]
  rw [show replDouble (md1Of segs) = md2Of segs from stage_double segs false h]
  exact stage_single segs none false h (Or.inr (by simp))

/-- Witness for C2: a paragraph holding one run of each emphasis kind
between literal runs. -/
theorem c2_inline_emphasis_witness :
    wfSegs
        [Seg.lit "a ".toList, Seg.strongem "bi".toList, Seg.lit " and ".toList,
         Seg.strong "b".toList, Seg.lit " plus ".toList, Seg.em "i".toList,
         Seg.lit ".".toList] = true ∧
      inlineHtml
          (mdOf
            [Seg.lit "a ".toList, Seg.strongem "bi".toList, Seg.lit " and ".toList,
             Seg.strong "b".toList, Seg.lit " plus ".toList, Seg.em "i".toList,
             Seg.lit ".".toList]) =
        htmlOf
          [Seg.lit "a ".toList, Seg.strongem "bi".toList, Seg.lit " and ".toList,
           Seg.strong "b".toList, Seg.lit " plus ".toList, Seg.em "i".toList,
           Seg.lit ".".toList] :=
  ⟨by decide,
    c2_inline_emphasis
      [Seg.lit "a ".toList, Seg.strongem "bi".toList, Seg.lit " and ".toList,
       Seg.strong "b".toList, Seg.lit " plus ".toList, Seg.em "i".toList,
       Seg.lit ".".toList] (by decide)⟩

/-- C3 (counterexample): the two in-app renderings do not classify every
line into the same block kind — the line `1. x` is a numbered item with
text `x` in the full book preview, but the expanded-card preview, which
has no numbered-item rule, renders it as a paragraph with the literal
text `1. x`. -/
theorem c3_previews_counterexample :
    classifyFull ['1', '.', ' ', 'x'] = Block.numbered ['x'] ∧
      classifyCard ['1', '.', ' ', 'x'] = CardBlock.para ['1', '.', ' ', 'x'] := by
  constructor
  · decide
  · have htrim : jsTrim ['1', '.', ' ', 'x'] = ['1', '.', ' ', 'x'] := by decide
    simp only [classifyCard, htrim]
    rw [if_neg (by decide), if_neg (by decide), if_neg (by decide)]
    rw [cleanInline_starFree ['1', '.', ' ', 'x'] (by decide)]

/-- C3 (amended): the two renderings agree on the blank, heading and
bullet classifications (with identical marker stripping, the card
forgetting the heading level), but every line the full preview classifies
as a numbered item is rendered by the expanded-card preview as a
paragraph, and paragraph emphasis is handled differently (markers
stripped rather than turned into tags): the card classification is
exactly the collapse of the full classification. -/
theorem c3_previews_agreement :
    ∀ line : Str, classifyCard line = collapseToCard (jsTrim line) (classifyFull line) := by
  intro line
  simp only [classifyCard, classifyFull]
  by_cases hb : jsTrim line = []
  · rw [if_pos hb, if_pos hb]
    rfl
  · rw [if_neg hb, if_neg hb]
    by_cases hh : testHeading (jsTrim line) = true
    · rw [if_pos hh, if_pos hh]
      rfl
    · rw [if_neg hh, if_neg hh]
      by_cases hbl : testBullet (jsTrim line) = true
      · rw [if_pos hbl, if_pos hbl]
        rfl
      · rw [if_neg hbl, if_neg hbl]
        by_cases hn : testNumbered (jsTrim line) = true
        · rw [if_pos hn]
          rfl
        · rw [if_neg hn]
          rfl

/-- C1: the full-preview line renderer classifies the trimmed form of
every line into exactly the block kind the spec's dialect prescribes —
one to four `#` characters followed by whitespace is a heading whose
level is the hash count and whose text is the remainder after the marker
(five or more `#` characters are not a heading); `-` or `*` followed by
whitespace is a bullet item with the marker stripped; digits then `.` or
`)` then whitespace is a numbered item with the marker stripped; a
whitespace-only line is a blank; everything else is a paragraph. -/
theorem c1_line_dialect :
    ∀ line : Str, kindOf (classifyFull line) = specDialectClassify line := by
  intro line
  simp only [classifyFull, specDialectClassify]
  by_cases hb : jsTrim line = []
  · rw [if_pos hb, if_pos ((jsTrim_eq_nil_iff line).mp hb)]
    rfl
  · rw [if_neg hb, if_neg (fun hc => hb ((jsTrim_eq_nil_iff line).mpr hc))]
    by_cases hh : testHeading (jsTrim line) = true
    · obtain ⟨h1, h4, hws⟩ := (testHeading_iff _).mp hh
      rw [if_pos hh, if_pos ⟨h1, h4, hws⟩]
      simp [kindOf, stripHeadingMarker, hh, Nat.min_eq_left h4]
    · rw [if_neg hh, if_neg (fun hc => hh ((testHeading_iff _).mpr hc))]
      by_cases hbl : testBullet (jsTrim line) = true
      · have hc : ((jsTrim line).head?.any fun c => c = '-' || c = '*') = true ∧
            ((jsTrim line).drop 1).head?.any isJsWs = true := by
          simpa [testBullet, Bool.and_eq_true] using hbl
        rw [if_pos hbl, if_pos hc]
        simp [kindOf, stripBulletMarker, hbl]
      · have hc : ¬(((jsTrim line).head?.any fun c => c = '-' || c = '*') = true ∧
            ((jsTrim line).drop 1).head?.any isJsWs = true) := by
          intro hcon
          have h2 := hcon.2
          rw [List.head?_drop] at h2
          exact hbl (by simp [testBullet, Bool.and_eq_true, hcon.1, h2])
        rw [if_neg hbl, if_neg hc]
        by_cases hn : testNumbered (jsTrim line) = true
        · obtain ⟨h1, hsep, hws⟩ := (testNumbered_iff _).mp hn
          rw [if_pos hn, if_pos ⟨h1, hsep, hws⟩]
          simp [kindOf, stripNumberedMarker, hn]
        · rw [if_neg hn, if_neg (fun hc => hn ((testNumbered_iff _).mpr hc))]
          rfl

/-- Witness for C10 at a freshly created book with an empty outline. -/
theorem c10_progress_defined_witness :
    bookDetailProgress
        { title := [], status := "outline_pending", language := "en",
          chapters := none, outline := none } = 0 ∧
      creatorProgressValue
          { status := "writing", error := none,
            generated_chapters := 0, total_chapters := 0 } = 0 :=
  ⟨(c10_progress_defined
        { title := [], status := "outline_pending", language := "en",
          chapters := none, outline := none }
        { status := "writing", error := none,
          generated_chapters := 0, total_chapters := 0 }).2.2.1
      (by simp [outlineOf]) (by simp [chaptersOf]),
    (c10_progress_defined
        { title := [], status := "outline_pending", language := "en",
          chapters := none, outline := none }
        { status := "writing", error := none,
          generated_chapters := 0, total_chapters := 0 }).2.2.2 rfl rfl⟩

end Kdp

